import Mathlib

/-!
# Verification of the SingularityLib fixed-size matrix library

Shallow embedding of `src/Singularity/Matrix.hpp` (the dense
`Sglty::Matrix<T, R, C>` class) and of the lazy elementwise subtraction
expression node `Sglty::Expr::Sub` (`Singularity/Arithmetic/Expr/Sub.hpp`).

The element type `T` (an arbitrary C++ arithmetic type in the source) is
instantiated at the exact-arithmetic type `ℤ`.  The compile-time dimension
template parameters `RowsAtCompileTime` / `ColsAtCompileTime` become `Nat`
parameters `R` / `C`.  The contiguous member `std::array<T, Rows() * Cols()>
data_` becomes a total function `Fin (R * C) → ℤ`, so the storage holds
exactly `R * C` elements by construction.
-/

namespace Sglty

/-- Embeds `Sglty::Matrix<T, R, C>` with `T = ℤ`: a contiguous block of exactly
`R * C` elements (`std::array<T, Rows() * Cols()> data_`), addressed in
column-major layout. -/
structure Matrix (R C : Nat) where
  data_ : Fin (R * C) → ℤ

/-- Constructor `Matrix()`: the defaulted constructor; `data_{}` value-initializes every
element of the array, i.e. to zero. -/
def Matrix.mkDefault {R C : Nat} : Matrix R C := ⟨fun _ => 0⟩

/-- Member `static constexpr size_t Dims()`: `Rows() == 1 ? Cols() : Rows()`
(available only for vector shapes). -/
def Dims (R C : Nat) : Nat := if R = 1 then C else R

/-- Member `static constexpr bool IsRowVector()`: `Rows() == 1`. -/
def IsRowVector (R C : Nat) : Bool := R == 1

/-- Member `static constexpr bool IsColVector()`: `Cols() == 1`. -/
def IsColVector (R C : Nat) : Bool := C == 1

/-- Member `static constexpr bool IsVector()`: `IsRowVector() || IsColVector()`. -/
def IsVector (R C : Nat) : Bool := IsRowVector R C || IsColVector R C

/-- Accessor `operator()(row, col)` (read): returns `data_[row + col * Rows()]`. -/
def Matrix.get2 {R C : Nat} (m : Matrix R C) (row : Fin R) (col : Fin C) : ℤ :=
  m.data_ ⟨row.val + col.val * R, by
    calc row.val + col.val * R < R + col.val * R := Nat.add_lt_add_right row.isLt _
      _ = (col.val + 1) * R := by ring
      _ ≤ C * R := Nat.mul_le_mul_right R (Nat.succ_le_of_lt col.isLt)
      _ = R * C := Nat.mul_comm C R⟩

/-- Accessor `operator()(row, col)` (write through the returned reference): assigning
`v` to `data_[row + col * Rows()]` yields the matrix whose storage holds `v`
at that linear offset and the previous contents everywhere else. -/
def Matrix.set2 {R C : Nat} (m : Matrix R C) (row : Fin R) (col : Fin C) (v : ℤ) :
    Matrix R C :=
  ⟨fun k => if k.val = row.val + col.val * R then v else m.data_ k⟩

/-- Accessor `operator()(index)` on vector shapes (`requires(IsVector())`): returns
`data_[index]` directly. -/
def Matrix.get1 {R C : Nat} (m : Matrix R C) (index : Fin (R * C)) : ℤ :=
  m.data_ index

/-- A matrix whose cell `(i, j)` holds `f i j`: renders any source loop that
assigns every position `(i, j)` of a freshly constructed result exactly once
(each cell lives at column-major offset `i + j * R`, and the offsets of
distinct cells are distinct). -/
def Matrix.ofFn {R C : Nat} (f : Fin R → Fin C → ℤ) : Matrix R C :=
  ⟨fun k =>
    have hR : 0 < R := by
      rcases Nat.eq_zero_or_pos R with h | h
      · exact absurd k.isLt (by simp [h])
      · exact h
    f ⟨k.val % R, Nat.mod_lt _ hR⟩
      ⟨k.val / R, Nat.div_lt_of_lt_mul k.isLt⟩⟩

/-- Constructor `Matrix(const std::initializer_list<T>&)`, enabled by
`requires(RowsAtCompileTime == 1 || ColsAtCompileTime == 1)`.  The body is
`std::copy(list.begin(), list.end(), data_.begin())` over the zero-initialized
`data_`: position `k` receives `list[k]` when `k < list.size()` and keeps its
zero otherwise.  The source performs no length check (a list longer than the
storage overruns the array and is undefined behavior; the model is only
consulted for lengths within the storage). -/
def flatConstruct {R C : Nat} (list : List ℤ) : Matrix R C :=
  ⟨fun k => if h : k.val < list.length then list.get ⟨k.val, h⟩ else 0⟩

/-- The inner element loop of the nested-initializer-list constructor: having
already checked `row.size() == Cols()`, it assigns `this->operator()(row_index,
col_index) = e` for the elements of one row, incrementing `col_index`.  The
bound checks mirror the fact that every write the source performs on the
non-throwing path has `row_index < Rows()` and `col_index < Cols()`. -/
def writeRowAux {R C : Nat} (m : Matrix R C) (ri : Fin R) (ci : Nat) :
    List ℤ → Matrix R C
  | [] => m
  | e :: rest =>
      writeRowAux (if h : ci < C then m.set2 ri ⟨ci, h⟩ e else m) ri (ci + 1) rest

/-- The outer row loop of the nested-initializer-list constructor: for each
row it first checks `row.size() != Cols()` and throws `std::invalid_argument`,
otherwise copies the row's elements and increments `row_index`. -/
def nestedConstructAux {R C : Nat} (m : Matrix R C) (ri : Nat) :
    List (List ℤ) → Except String (Matrix R C)
  | [] => .ok m
  | row :: rest =>
      if row.length ≠ C then
        .error "Sglty::Matrix: Number of columns MUST equal ColsAtCompileTime"
      else
        nestedConstructAux
          (if h : ri < R then writeRowAux m ⟨ri, h⟩ 0 row else m) (ri + 1) rest

/-- Constructor `Matrix(const std::initializer_list<std::initializer_list<T>>&)`, enabled
by `requires(RowsAtCompileTime > 1 && ColsAtCompileTime > 1)`: throws
`std::invalid_argument` when `list.size() != Rows()`, then runs the row loop
over the zero-initialized storage.  The `Except` error value renders the
thrown exception. -/
def nestedConstruct {R C : Nat} (list : List (List ℤ)) : Except String (Matrix R C) :=
  if list.length ≠ R then
    .error "Sglty::Matrix: Number of rows MUST equal RowsAtCompileTime"
  else
    nestedConstructAux Matrix.mkDefault 0 list

/-- Member `GetColVector(col)`: a fresh `ColVector<T, Rows()>` whose entry `i` is
`this->operator()(i, col)` for each `i < Rows()` (each entry of the result is
assigned exactly once by the loop). -/
def Matrix.GetColVector {R C : Nat} (m : Matrix R C) (col : Fin C) : Matrix R 1 :=
  Matrix.ofFn fun i _ => m.get2 i col

/-- Member `GetRowVector(row)`: a fresh `RowVector<T, Cols()>` whose entry `i` is
`this->operator()(row, i)` for each `i < Cols()`. -/
def Matrix.GetRowVector {R C : Nat} (m : Matrix R C) (row : Fin R) : Matrix 1 C :=
  Matrix.ofFn fun _ j => m.get2 row j

/-- Member `static constexpr Matrix Identity()`, enabled by
`requires(Rows() == Cols())`: starts from the default (all-zero) matrix and
runs `for (i < Rows()) result(i, i) = 1`. -/
def Identity (R : Nat) : Matrix R R :=
  (List.finRange R).foldl (fun m i => m.set2 i i 1) Matrix.mkDefault

/-- Accessor `operator()(index)` on a row vector, with the `1 * n` storage size of
`RowVector<T, n> = Matrix<T, 1, n>` reindexed by the dimension. -/
def Matrix.rget {n : Nat} (v : Matrix 1 n) (i : Fin n) : ℤ :=
  v.get1 ⟨i.val, by have := i.isLt; omega⟩

/-- Accessor `operator()(index)` on a column vector, with the `n * 1` storage size of
`ColVector<T, n> = Matrix<T, n, 1>` reindexed by the dimension. -/
def Matrix.cget {n : Nat} (v : Matrix n 1) (i : Fin n) : ℤ :=
  v.get1 ⟨i.val, by have := i.isLt; omega⟩

/-- Operator `T operator*(const ColVector<T, Cols()>&)`, enabled by
`requires(IsRowVector())`: `result = 0`, then
`for (i < Cols()) result += this->operator()(i) * other(i)`. -/
def dot {n : Nat} (l : Matrix 1 n) (r : Matrix n 1) : ℤ :=
  (List.finRange n).foldl (fun result i => result + l.rget i * r.cget i) 0

/-- Operators `operator+=` / `operator+`: `operator+` copies the left operand and runs
`for (i < Rows()) for (j < Cols()) this(i, j) += other(i, j)`, so every cell
`(i, j)` of the result is assigned `a(i, j) + b(i, j)` exactly once. -/
def Matrix.add {R C : Nat} (a b : Matrix R C) : Matrix R C :=
  Matrix.ofFn fun i j => a.get2 i j + b.get2 i j

/-- Operators `operator*=` / `operator*(const T)`: `operator*` copies the operand and
runs `for (i < data_.size()) data_[i] *= scalar` over the linear storage. -/
def Matrix.smul {R C : Nat} (a : Matrix R C) (scalar : ℤ) : Matrix R C :=
  ⟨fun k => a.data_ k * scalar⟩

/-- Operator `operator*(const Matrix<T, Cols(), OtherCols>&)`: a fresh
`Matrix<T, Rows(), OtherCols>` with
`result(i, j) = this->GetRowVector(i) * other.GetColVector(j)` for every
`i < result.Rows()`, `j < result.Cols()` (each cell assigned exactly once by
the two loops). -/
def matmul {R K C : Nat} (a : Matrix R K) (b : Matrix K C) : Matrix R C :=
  Matrix.ofFn fun i j => dot (a.GetRowVector i) (b.GetColVector j)

namespace Expr

/-- Embeds `Sglty::Expr::Sub<_lhs, _rhs>` (`Singularity/Arithmetic/Expr/Sub.hpp`):
stores the two operand expressions by value (fields `_l`, `_r`).  An operand
expression is anything exposing compile-time `rows` / `cols` constants and an
element query `operator()(i, j)`; it is embedded here as its element-query
function.  The constructor's `static_assert` that both operands share one
shape is rendered by both operands being queries over the same `R` and `C`
(also making `rows = lhs_type::rows` and `cols = rhs_type::cols` the common
shape).  The node has no storage beyond its operands. -/
structure Sub (R C : Nat) where
  _l : Fin R → Fin C → ℤ
  _r : Fin R → Fin C → ℤ

/-- Query `constexpr auto operator()(size_t i, size_t j) const`: returns
`_l(i, j) - _r(i, j)`, re-evaluated from the operands on every call. -/
def Sub.app {R C : Nat} (s : Sub R C) (i : Fin R) (j : Fin C) : ℤ :=
  s._l i j - s._r i j

/-- Terminal materialization (spec §4.2: an external collaborator queries
every `(i, j)` of the node's shape exactly once and copies the result into
new storage). -/
def Sub.materialize {R C : Nat} (s : Sub R C) : Matrix R C :=
  Matrix.ofFn s.app

end Expr

/-- The 2×2 example matrix A = {{5, 6}, {7, 8}} of spec §8, by the cells the
nested literal supplies. -/
def exA : Matrix 2 2 :=
  Matrix.ofFn fun i j => (([[5, 6], [7, 8]] : List (List ℤ)).getD i.val []).getD j.val 0

/-- The 2×2 example matrix B = {{1, 2}, {3, 4}} of spec §8. -/
def exB : Matrix 2 2 :=
  Matrix.ofFn fun i j => (([[1, 2], [3, 4]] : List (List ℤ)).getD i.val []).getD j.val 0

/-! ## Characterization lemmas -/

/-- Column-major offset bound: for `row < R` and `col < C` the linear offset
`row + col * R` used by `operator()(row, col)` is inside the `R * C` storage. -/
theorem off_lt {R C i j : Nat} (hi : i < R) (hj : j < C) : i + j * R < R * C := by
  calc i + j * R < R + j * R := Nat.add_lt_add_right hi _
    _ = (j + 1) * R := by ring
    _ ≤ C * R := Nat.mul_le_mul_right R (Nat.succ_le_of_lt hj)
    _ = R * C := Nat.mul_comm C R

/-- The row index is recovered from a column-major offset by `% R`. -/
theorem off_mod {R i j : Nat} (hi : i < R) : (i + j * R) % R = i := by
  rw [Nat.add_mul_mod_self_right, Nat.mod_eq_of_lt hi]

/-- The column index is recovered from a column-major offset by `/ R`. -/
theorem off_div {R i j : Nat} (hi : i < R) : (i + j * R) / R = j := by
  have hR : 0 < R := Nat.lt_of_le_of_lt (Nat.zero_le i) hi
  rw [Nat.add_mul_div_right _ _ hR, Nat.div_eq_of_lt hi, Nat.zero_add]

theorem Matrix.get2_ofFn {R C : Nat} (f : Fin R → Fin C → ℤ) (i : Fin R) (j : Fin C) :
    (Matrix.ofFn f).get2 i j = f i j := by
  unfold Matrix.ofFn Matrix.get2
  simp only [off_mod i.isLt, off_div i.isLt, Fin.eta]

theorem Matrix.get2_set2_self {R C : Nat} (m : Matrix R C) (r : Fin R) (c : Fin C)
    (v : ℤ) : (m.set2 r c v).get2 r c = v := by
  simp [Matrix.set2, Matrix.get2]

theorem Matrix.get2_set2_ne {R C : Nat} (m : Matrix R C) (r : Fin R) (c : Fin C)
    (v : ℤ) (i : Fin R) (j : Fin C) (h : ¬(i = r ∧ j = c)) :
    (m.set2 r c v).get2 i j = m.get2 i j := by
  unfold Matrix.set2 Matrix.get2
  simp only
  rw [if_neg]
  intro heq
  have hi : i.val = r.val := by
    have := congrArg (· % R) heq
    simpa [off_mod i.isLt, off_mod r.isLt] using this
  have hj : j.val = c.val := by
    have := congrArg (· / R) heq
    simpa [off_div i.isLt, off_div r.isLt] using this
  exact h ⟨Fin.ext hi, Fin.ext hj⟩

/-- Two matrices with the same value at every cell `(i, j)` are equal: the
column-major offset map covers the whole storage. -/
theorem Matrix.ext2 {R C : Nat} {m1 m2 : Matrix R C}
    (h : ∀ (i : Fin R) (j : Fin C), m1.get2 i j = m2.get2 i j) : m1 = m2 := by
  cases m1 with
  | mk d1 =>
    cases m2 with
    | mk d2 =>
      simp only [Matrix.mk.injEq]
      funext k
      have hR : 0 < R := by
        rcases Nat.eq_zero_or_pos R with h0 | h0
        · exact absurd k.isLt (by simp [h0])
        · exact h0
      have hmod : k.val % R < R := Nat.mod_lt _ hR
      have hdiv : k.val / R < C :=
        Nat.div_lt_of_lt_mul k.isLt
      have hk := h ⟨k.val % R, hmod⟩ ⟨k.val / R, hdiv⟩
      unfold Matrix.get2 at hk
      simp only at hk
      have hoff : k.val % R + k.val / R * R = k.val := Nat.mod_add_div' k.val R
      have hfin : (⟨k.val % R + k.val / R * R, off_lt hmod hdiv⟩ : Fin (R * C)) = k :=
        Fin.ext hoff
      rwa [hfin] at hk

theorem Matrix.get2_set2 {R C : Nat} (m : Matrix R C) (r : Fin R) (c : Fin C)
    (v : ℤ) (i : Fin R) (j : Fin C) :
    (m.set2 r c v).get2 i j = if i = r ∧ j = c then v else m.get2 i j := by
  by_cases h : i = r ∧ j = c
  · rcases h with ⟨h1, h2⟩
    subst h1
    subst h2
    simp [Matrix.get2_set2_self]
  · rw [if_neg h, Matrix.get2_set2_ne m r c v i j h]

theorem Matrix.get2_mkDefault {R C : Nat} (i : Fin R) (j : Fin C) :
    (Matrix.mkDefault : Matrix R C).get2 i j = 0 := rfl

theorem Matrix.rget_GetRowVector {R C : Nat} (m : Matrix R C) (row : Fin R)
    (j : Fin C) : (m.GetRowVector row).rget j = m.get2 row j := by
  unfold Matrix.GetRowVector Matrix.rget Matrix.get1 Matrix.ofFn
  simp only
  congr 1
  exact Fin.ext (Nat.div_one j.val)

theorem Matrix.cget_GetColVector {R C : Nat} (m : Matrix R C) (col : Fin C)
    (i : Fin R) : (m.GetColVector col).cget i = m.get2 i col := by
  unfold Matrix.GetColVector Matrix.cget Matrix.get1 Matrix.ofFn
  simp only
  congr 1
  exact Fin.ext (Nat.mod_eq_of_lt i.isLt)

/-- The running-accumulator loop `result = init; for a in l: result += f a`
computes `init` plus the sum of `f` over `l`. -/
theorem foldl_add_eq_sum {α : Type} (f : α → ℤ) (l : List α) (init : ℤ) :
    l.foldl (fun result a => result + f a) init = init + (l.map f).sum := by
  induction l generalizing init with
  | nil => simp
  | cons a l ih => rw [List.foldl_cons, ih, List.map_cons, List.sum_cons]; ring

/-- The dot-product loop accumulates exactly `Σ i < n, l(i) * r(i)`. -/
theorem dot_eq_sum {n : Nat} (l : Matrix 1 n) (r : Matrix n 1) :
    dot l r = ∑ i : Fin n, l.rget i * r.cget i := by
  unfold dot
  rw [foldl_add_eq_sum, zero_add, Fin.sum_univ_def]

/-- Cell `(i, j)` of the eager product is the dot product of row `i` of `a`
with column `j` of `b`, i.e. `Σ k, a(i, k) * b(k, j)`. -/
theorem matmul_get2 {R K C : Nat} (a : Matrix R K) (b : Matrix K C) (i : Fin R)
    (j : Fin C) : (matmul a b).get2 i j = ∑ k : Fin K, a.get2 i k * b.get2 k j := by
  unfold matmul
  rw [Matrix.get2_ofFn, dot_eq_sum]
  exact Finset.sum_congr rfl fun k _ => by
    rw [Matrix.rget_GetRowVector, Matrix.cget_GetColVector]

theorem get2_foldl_diag {R : Nat} (l : List (Fin R)) (m : Matrix R R)
    (i j : Fin R) :
    (l.foldl (fun m x => m.set2 x x 1) m).get2 i j =
      if i = j ∧ i ∈ l then 1 else m.get2 i j := by
  induction l generalizing m with
  | nil => simp
  | cons a l ih =>
      rw [List.foldl_cons, ih, Matrix.get2_set2]
      by_cases h1 : i = j
      · subst h1
        by_cases h2 : i ∈ l
        · simp [h2]
        · by_cases h3 : i = a
          · subst h3
            simp [h2]
          · simp [h2, h3]
      · have hne : ¬(i = a ∧ j = a) := by
          rintro ⟨ha, hb⟩
          exact h1 (ha.trans hb.symm)
        simp [h1, hne]

/-- Function `Identity()` holds `1` on the main diagonal and `0` elsewhere. -/
theorem Identity_get2 {R : Nat} (i j : Fin R) :
    (Identity R).get2 i j = if i = j then 1 else 0 := by
  unfold Identity
  rw [get2_foldl_diag]
  simp [List.mem_finRange, Matrix.get2_mkDefault]

/-- Effect of copying one row's elements starting at column `ci`: cell
`(i, j)` receives element `j - ci` of the row when `i` is the written row and
`ci ≤ j < ci + elems.length`, and is untouched otherwise. -/
theorem get2_writeRowAux {R C : Nat} (elems : List ℤ) (m : Matrix R C)
    (ri : Fin R) (ci : Nat) (i : Fin R) (j : Fin C) :
    (writeRowAux m ri ci elems).get2 i j =
      if i = ri ∧ ci ≤ j.val ∧ j.val < ci + elems.length
      then elems.getD (j.val - ci) 0 else m.get2 i j := by
  induction elems generalizing m ci with
  | nil =>
      rw [writeRowAux, if_neg]
      rintro ⟨-, h1, h2⟩
      simp only [List.length_nil, Nat.add_zero] at h2
      omega
  | cons e rest ih =>
      rw [writeRowAux, ih]
      by_cases hiri : i = ri
      · subst hiri
        by_cases hj : j.val = ci
        · have hci : ci < C := hj ▸ j.isLt
          rw [if_neg (by rintro ⟨-, h1, -⟩; omega), dif_pos hci,
            Matrix.get2_set2, if_pos ⟨rfl, Fin.ext hj⟩,
            if_pos ⟨rfl, by omega, by simp; omega⟩]
          simp [hj]
        · by_cases hlo : ci ≤ j.val
          · by_cases hhi : j.val < ci + 1 + rest.length
            · rw [if_pos ⟨rfl, by omega, hhi⟩, if_pos ⟨rfl, hlo, by simp; omega⟩]
              have hsucc : j.val - ci = (j.val - (ci + 1)) + 1 := by omega
              rw [hsucc, List.getD_cons_succ]
            · rw [if_neg (by rintro ⟨-, -, h2⟩; omega),
                if_neg (by rintro ⟨-, -, h2⟩; simp at h2; omega)]
              by_cases hci : ci < C
              · rw [dif_pos hci, Matrix.get2_set2, if_neg]
                rintro ⟨-, hj2⟩
                exact hj (congrArg Fin.val hj2)
              · rw [dif_neg hci]
          · rw [if_neg (by rintro ⟨-, h1, -⟩; omega),
              if_neg (by rintro ⟨-, h1, -⟩; omega)]
            by_cases hci : ci < C
            · rw [dif_pos hci, Matrix.get2_set2, if_neg]
              rintro ⟨-, hj2⟩
              exact hj (congrArg Fin.val hj2)
            · rw [dif_neg hci]
      · rw [if_neg (fun h => hiri h.1), if_neg (fun h => hiri h.1)]
        by_cases hci : ci < C
        · rw [dif_pos hci, Matrix.get2_set2, if_neg (fun h => hiri h.1)]
        · rw [dif_neg hci]

/-- The row loop reports an error exactly when some supplied row has the
wrong length. -/
theorem nestedConstructAux_error {R C : Nat} (rows : List (List ℤ))
    (m : Matrix R C) (ri : Nat) :
    (∃ msg, nestedConstructAux m ri rows = .error msg) ↔
      ∃ row ∈ rows, row.length ≠ C := by
  induction rows generalizing m ri with
  | nil => simp [nestedConstructAux]
  | cons row rest ih =>
      rw [nestedConstructAux]
      by_cases h : row.length ≠ C
      · simp only [if_pos h]
        constructor
        · intro _
          exact ⟨row, List.mem_cons_self row rest, h⟩
        · intro _
          exact ⟨_, rfl⟩
      · simp only [if_neg h, ih]
        push_neg at h
        constructor
        · rintro ⟨r, hr, hrr⟩
          exact ⟨r, List.mem_cons_of_mem row hr, hrr⟩
        · rintro ⟨r, hr, hrr⟩
          rcases List.mem_cons.mp hr with heq | hmem
          · exact absurd (heq ▸ h) hrr
          · exact ⟨r, hmem, hrr⟩

/-- When the row loop succeeds, row `ri + t` of the result holds the supplied
row `t` (all rows have length `C` on the success path), and rows outside the
written range keep the initial matrix's contents. -/
theorem nestedConstructAux_ok {R C : Nat} (rows : List (List ℤ))
    (m m2 : Matrix R C) (ri : Nat)
    (hok : nestedConstructAux m ri rows = .ok m2) (i : Fin R) (j : Fin C) :
    m2.get2 i j =
      if ri ≤ i.val ∧ i.val < ri + rows.length
      then (rows.getD (i.val - ri) []).getD j.val 0 else m.get2 i j := by
  induction rows generalizing m ri with
  | nil =>
      rw [nestedConstructAux] at hok
      cases hok
      rw [if_neg]
      rintro ⟨h1, h2⟩
      simp only [List.length_nil, Nat.add_zero] at h2
      omega
  | cons row rest ih =>
      rw [nestedConstructAux] at hok
      by_cases hrow : row.length ≠ C
      · rw [if_pos hrow] at hok
        exact absurd hok (by simp)
      · rw [if_neg hrow] at hok
        push_neg at hrow
        rw [ih _ _ hok]
        by_cases hcase : ri + 1 ≤ i.val ∧ i.val < ri + 1 + rest.length
        · rw [if_pos hcase,
            if_pos ⟨by omega, by simp only [List.length_cons]; omega⟩]
          have hsucc : i.val - ri = (i.val - (ri + 1)) + 1 := by omega
          rw [hsucc, List.getD_cons_succ]
        · rw [if_neg hcase]
          by_cases hri : i.val = ri
          · have hlt : ri < R := hri ▸ i.isLt
            rw [dif_pos hlt, get2_writeRowAux,
              if_pos ⟨Fin.ext hri, by omega, by rw [hrow]; omega⟩,
              if_pos ⟨by omega, by simp only [List.length_cons]; omega⟩]
            simp [hri]
          · have hout : ¬(ri ≤ i.val ∧ i.val < ri + (row :: rest).length) := by
              simp only [List.length_cons]
              omega
            rw [if_neg hout]
            by_cases hlt : ri < R
            · rw [dif_pos hlt, get2_writeRowAux, if_neg]
              rintro ⟨hfin, -⟩
              exact hri (congrArg Fin.val hfin)
            · rw [dif_neg hlt]

theorem Matrix.get2_add {R C : Nat} (a b : Matrix R C) (i : Fin R) (j : Fin C) :
    (a.add b).get2 i j = a.get2 i j + b.get2 i j := by
  unfold Matrix.add
  rw [Matrix.get2_ofFn]

theorem Matrix.get2_smul {R C : Nat} (a : Matrix R C) (scalar : ℤ) (i : Fin R)
    (j : Fin C) : (a.smul scalar).get2 i j = a.get2 i j * scalar := rfl

/-- The nested constructor throws exactly when the outer length differs from
`R` or some inner row's length differs from `C`. -/
theorem nestedConstruct_error_iff {R C : Nat} (l : List (List ℤ)) :
    (∃ msg, nestedConstruct (R := R) (C := C) l = .error msg) ↔
      (l.length ≠ R ∨ ∃ row ∈ l, row.length ≠ C) := by
  rw [nestedConstruct]
  by_cases hlen : l.length ≠ R
  · rw [if_pos hlen]
    simp [hlen]
  · rw [if_neg hlen, nestedConstructAux_error]
    push_neg at hlen
    simp [hlen]

/-- When the nested constructor succeeds, cell `(i, j)` of the result is the
element at outer position `i`, inner position `j` of the supplied literal. -/
theorem nestedConstruct_ok_get2 {R C : Nat} (l : List (List ℤ)) (m : Matrix R C)
    (hok : nestedConstruct (R := R) (C := C) l = .ok m) (i : Fin R) (j : Fin C) :
    m.get2 i j = (l.getD i.val []).getD j.val 0 := by
  rw [nestedConstruct] at hok
  by_cases hlen : l.length ≠ R
  · rw [if_pos hlen] at hok
    exact absurd hok (by simp)
  · rw [if_neg hlen] at hok
    push_neg at hlen
    rw [nestedConstructAux_ok l _ m 0 hok i j,
      if_pos ⟨Nat.zero_le _, by have := i.isLt; omega⟩, Nat.sub_zero]

theorem nestedConstruct_exA :
    nestedConstruct (R := 2) (C := 2) [[5, 6], [7, 8]] = .ok exA := by
  rcases h : nestedConstruct (R := 2) (C := 2) [[5, 6], [7, 8]] with msg | m
  · exact absurd ((nestedConstruct_error_iff _).mp ⟨msg, h⟩) (by decide)
  · congr 1
    apply Matrix.ext2
    intro i j
    rw [nestedConstruct_ok_get2 _ _ h i j]
    unfold exA
    rw [Matrix.get2_ofFn]

theorem nestedConstruct_exB :
    nestedConstruct (R := 2) (C := 2) [[1, 2], [3, 4]] = .ok exB := by
  rcases h : nestedConstruct (R := 2) (C := 2) [[1, 2], [3, 4]] with msg | m
  · exact absurd ((nestedConstruct_error_iff _).mp ⟨msg, h⟩) (by decide)
  · congr 1
    apply Matrix.ext2
    intro i j
    rw [nestedConstruct_ok_get2 _ _ h i j]
    unfold exB
    rw [Matrix.get2_ofFn]

/-- Unfolding of flat construction at one storage position. -/
theorem get1_flatConstruct {R C : Nat} (list : List ℤ) (k : Fin (R * C)) :
    (flatConstruct (R := R) (C := C) list).get1 k =
      if h : k.val < list.length then list.get ⟨k.val, h⟩ else 0 := rfl

/-! ## Claims -/

/-- C1 counterexample: the claim says a flat construction whose length is not
exactly `Dims()` fails at construction with an error signal.  It is false:
`RowVector<int, 3>{1, 2}` supplies 2 ≠ Dims() = 3 elements, yet the
constructor (`std::copy` with no length check, Matrix.hpp lines 77-81)
succeeds and produces the well-defined vector (1, 2, 0). -/
theorem C1_counterexample :
    ([(1 : ℤ), 2].length ≠ Dims 1 3)
  ∧ (flatConstruct (R := 1) (C := 3) [1, 2]).get1 ⟨0, by decide⟩ = 1
  ∧ (flatConstruct (R := 1) (C := 3) [1, 2]).get1 ⟨1, by decide⟩ = 2
  ∧ (flatConstruct (R := 1) (C := 3) [1, 2]).get1 ⟨2, by decide⟩ = 0 := by
  decide

/-- C1 (amended): for every vector shape, flat construction performs no
length validation and never signals an error; for a supplied length
`m ≤ Dims()` it succeeds, and every element of the result is the supplied
element at that position when one exists and zero (the default-initialized
value) otherwise. -/
theorem C1_flat_no_length_check {R C : Nat} (hvec : IsVector R C = true)
    (list : List ℤ) (hlen : list.length ≤ Dims R C) (k : Fin (R * C)) :
    (flatConstruct (R := R) (C := C) list).get1 k = list.getD k.val 0 := by
  rw [get1_flatConstruct]
  by_cases h : k.val < list.length
  · rw [dif_pos h]
    exact (List.getD_eq_getElem list 0 h).symm
  · rw [dif_neg h]
    exact (List.getD_eq_default list 0 (by omega)).symm

/-- C1 (amended) witness at `RowVector<int, 3>{5, 7}`, position 2. -/
theorem C1_flat_no_length_check_witness :
    (flatConstruct (R := 1) (C := 3) [5, 7]).get1 ⟨2, by decide⟩ =
      [(5 : ℤ), 7].getD 2 0 :=
  C1_flat_no_length_check (by decide) [5, 7] (by decide) ⟨2, by decide⟩

/-- C2: each element `(i, j)` of the eager product `A * B` equals the sum
over `k` of `A(i, k) * B(k, j)`, which is the dot product of row `i` of `A`
(extracted by `GetRowVector`) with column `j` of `B` (extracted by
`GetColVector`); the result has shape `(R, C)` by the type of `matmul`. -/
theorem C2_matmul_elements {R K C : Nat} (A : Matrix R K) (B : Matrix K C)
    (i : Fin R) (j : Fin C) :
    (matmul A B).get2 i j = ∑ k : Fin K, A.get2 i k * B.get2 k j
  ∧ (matmul A B).get2 i j = dot (A.GetRowVector i) (B.GetColVector j) := by
  refine ⟨matmul_get2 A B i j, ?_⟩
  unfold matmul
  rw [Matrix.get2_ofFn]

/-- C3: the lazy subtraction node answers the element query `(i, j)` with
`left(i, j) - right(i, j)` for any equally-shaped operands; for the 2×2
matrices A = {{5, 6}, {7, 8}} and B = {{1, 2}, {3, 4}} (built by the nested
constructor) every query yields 4, and materializing the same node twice
yields identical results (the node is a pure function of its operands with no
stored result). -/
theorem C3_sub_node_query :
    (∀ (R C : Nat) (lq rq : Fin R → Fin C → ℤ) (i : Fin R) (j : Fin C),
      (Expr.Sub.mk lq rq).app i j = lq i j - rq i j)
  ∧ ∀ A B : Matrix 2 2,
      nestedConstruct (R := 2) (C := 2) [[5, 6], [7, 8]] = .ok A →
      nestedConstruct (R := 2) (C := 2) [[1, 2], [3, 4]] = .ok B →
      (∀ (i j : Fin 2), (Expr.Sub.mk A.get2 B.get2).app i j = 4)
      ∧ (Expr.Sub.mk A.get2 B.get2).materialize
          = (Expr.Sub.mk A.get2 B.get2).materialize := by
  constructor
  · intro R C lq rq i j
    rfl
  · intro A B hA hB
    refine ⟨fun i j => ?_, rfl⟩
    show A.get2 i j - B.get2 i j = 4
    rw [nestedConstruct_ok_get2 _ _ hA i j, nestedConstruct_ok_get2 _ _ hB i j]
    fin_cases i <;> fin_cases j <;> decide

/-- C3 witness: the concrete 2×2 example instantiated with the matrices the
nested constructor actually produces. -/
theorem C3_sub_node_query_witness :
    (∀ (i j : Fin 2), (Expr.Sub.mk exA.get2 exB.get2).app i j = 4)
  ∧ (Expr.Sub.mk exA.get2 exB.get2).materialize
      = (Expr.Sub.mk exA.get2 exB.get2).materialize :=
  C3_sub_node_query.2 exA exB nestedConstruct_exA nestedConstruct_exB

/-- C4: for `R > 1`, `C > 1`, nested construction raises an invalid-argument
error exactly when the outer length differs from `R` or some inner row's
length differs from `C` (no silent truncation or padding); on success,
reading back cell `(i, j)` reproduces the supplied value at outer position
`i`, inner position `j`. -/
theorem C4_nested_validation_roundtrip {R C : Nat} (hR : 1 < R) (hC : 1 < C)
    (l : List (List ℤ)) :
    ((∃ msg, nestedConstruct (R := R) (C := C) l = .error msg) ↔
      (l.length ≠ R ∨ ∃ row ∈ l, row.length ≠ C))
  ∧ ∀ m, nestedConstruct (R := R) (C := C) l = .ok m →
      ∀ (i : Fin R) (j : Fin C), m.get2 i j = (l.getD i.val []).getD j.val 0 :=
  ⟨nestedConstruct_error_iff l, fun m hok i j => nestedConstruct_ok_get2 l m hok i j⟩

/-- C4 witness at the 2×2 literal {{5, 6}, {7, 8}}. -/
theorem C4_nested_validation_roundtrip_witness :
    ((∃ msg, nestedConstruct (R := 2) (C := 2) [[5, 6], [7, 8]] = .error msg) ↔
      (([[5, 6], [7, 8]] : List (List ℤ)).length ≠ 2 ∨
        ∃ row ∈ ([[5, 6], [7, 8]] : List (List ℤ)), row.length ≠ 2))
  ∧ ∀ m, nestedConstruct (R := 2) (C := 2) [[5, 6], [7, 8]] = .ok m →
      ∀ (i j : Fin 2),
        m.get2 i j = (([[5, 6], [7, 8]] : List (List ℤ)).getD i.val []).getD j.val 0 :=
  C4_nested_validation_roundtrip (by decide) (by decide) [[5, 6], [7, 8]]

/-- C5: multiplying by `Identity()` leaves any shape-compatible matrix
unchanged on both sides (the element type `ℤ` is exact arithmetic). -/
theorem C5_identity_law {R C : Nat} (M : Matrix R C) :
    matmul (Identity R) M = M ∧ matmul M (Identity C) = M := by
  constructor
  · apply Matrix.ext2
    intro i j
    rw [matmul_get2, Finset.sum_eq_single i]
    · rw [Identity_get2, if_pos rfl, one_mul]
    · intro b hb hbi
      rw [Identity_get2, if_neg (fun h => hbi h.symm), zero_mul]
    · intro hi
      exact absurd (Finset.mem_univ i) hi
  · apply Matrix.ext2
    intro i j
    rw [matmul_get2, Finset.sum_eq_single j]
    · rw [Identity_get2, if_pos rfl, mul_one]
    · intro b hb hbj
      rw [Identity_get2, if_neg hbj, mul_zero]
    · intro hj
      exact absurd (Finset.mem_univ j) hj

/-- C6: two-index access `(row, col)` reads the element at linear offset
`row + col * R` of the contiguous column-major storage of exactly `R * C`
elements (the storage is indexed by `Fin (R * C)`), writing through it
changes exactly that offset, and the offset determines the cell uniquely. -/
theorem C6_column_major_layout {R C : Nat} (m : Matrix R C) (row : Fin R)
    (col : Fin C) (v : ℤ) :
    m.get2 row col = m.data_ ⟨row.val + col.val * R, off_lt row.isLt col.isLt⟩
  ∧ (∀ k : Fin (R * C), (m.set2 row col v).data_ k =
      if k.val = row.val + col.val * R then v else m.data_ k)
  ∧ ∀ (i : Fin R) (j : Fin C),
      (i.val + j.val * R = row.val + col.val * R) ↔ (i = row ∧ j = col) := by
  refine ⟨rfl, fun k => rfl, fun i j => ⟨fun h => ?_, fun h => by rw [h.1, h.2]⟩⟩
  constructor
  · apply Fin.ext
    have := congrArg (· % R) h
    simpa [off_mod i.isLt, off_mod row.isLt] using this
  · apply Fin.ext
    have := congrArg (· / R) h
    simpa [off_div i.isLt, off_div row.isLt] using this

/-- C7: the row-vector-times-column-vector product is the bare scalar
`Σ i < n, l(i) * r(i)` (it returns `ℤ`, not a matrix); in particular
`RowVector{1, 2, 3} * ColVector{1, 2, 3} = 14`. -/
theorem C7_dot_product_sum :
    (∀ (n : Nat) (l : Matrix 1 n) (r : Matrix n 1),
      dot l r = ∑ i : Fin n, l.rget i * r.cget i)
  ∧ dot (flatConstruct (R := 1) (C := 3) [1, 2, 3])
      (flatConstruct (R := 3) (C := 1) [1, 2, 3]) = 14 :=
  ⟨fun _ l r => dot_eq_sum l r, by decide⟩

/-- C8: eager addition of equally-shaped matrices is commutative and
associative. -/
theorem C8_add_comm_assoc {R C : Nat} (A B D : Matrix R C) :
    A.add B = B.add A ∧ (A.add B).add D = A.add (B.add D) := by
  constructor
  · apply Matrix.ext2
    intro i j
    rw [Matrix.get2_add, Matrix.get2_add]
    ring
  · apply Matrix.ext2
    intro i j
    rw [Matrix.get2_add, Matrix.get2_add, Matrix.get2_add, Matrix.get2_add]
    ring

/-- C9: scalar multiplication distributes over addition:
`(A + B) * k = A * k + B * k`. -/
theorem C9_scalar_distributes_over_add {R C : Nat} (A B : Matrix R C) (k : ℤ) :
    (A.add B).smul k = (A.smul k).add (B.smul k) := by
  apply Matrix.ext2
  intro i j
  rw [Matrix.get2_smul, Matrix.get2_add, Matrix.get2_add, Matrix.get2_smul,
    Matrix.get2_smul]
  ring

/-- C10: for every vector shape and flat list of length `m ≤ Dims()`,
construction succeeds without raising (the constructor has no failure path):
the first `m` elements of the result equal the list's elements in order and
every remaining element is zero, the default-initialized value. -/
theorem C10_flat_under_length_copies {R C : Nat} (hvec : IsVector R C = true)
    (list : List ℤ) (hlen : list.length ≤ Dims R C) :
    (∀ (k : Fin (R * C)) (h : k.val < list.length),
      (flatConstruct (R := R) (C := C) list).get1 k = list.get ⟨k.val, h⟩)
  ∧ ∀ k : Fin (R * C), list.length ≤ k.val →
      (flatConstruct (R := R) (C := C) list).get1 k = 0 := by
  constructor
  · intro k h
    rw [get1_flatConstruct, dif_pos h]
  · intro k h
    rw [get1_flatConstruct, dif_neg (by omega)]

/-- C10 witness at `RowVector<int, 3>{4, 5}`: position 1 holds 5, position 2
holds the default zero. -/
theorem C10_flat_under_length_copies_witness :
    ((flatConstruct (R := 1) (C := 3) [4, 5]).get1 ⟨1, by decide⟩ =
      [(4 : ℤ), 5].get ⟨1, by decide⟩)
  ∧ (flatConstruct (R := 1) (C := 3) [4, 5]).get1 ⟨2, by decide⟩ = 0 :=
  ⟨(C10_flat_under_length_copies (by decide) [4, 5] (by decide)).1 ⟨1, by decide⟩
      (by decide),
   (C10_flat_under_length_copies (by decide) [4, 5] (by decide)).2 ⟨2, by decide⟩
      (by decide)⟩

end Sglty
